/-
Verification of the track/via connectivity model of `pcbnew/class_track.h`
(KiCad source mirror). The data model and the inline member functions are
embedded directly from the header; routines whose implementation lives in
`class_track.cpp` (not part of this excerpt) are modelled from the
specification and marked as such in their doc comments.
-/
import Mathlib

set_option maxHeartbeats 1000000

/-- A 2-D integer point, embedding `wxPoint` (integer coordinates). -/
structure wxPoint where
  x : Int
  y : Int
deriving DecidableEq, Repr

/-- Item type discriminator, embedding the `KICAD_T` values used by tracks:
`PCB_TRACE_T` for trace segments, `PCB_VIA_T` for vias, `PCB_SEGZONE_T` for
zone-boundary segments. -/
inductive KICAD_T where
  | PCB_TRACE_T
  | PCB_VIA_T
  | PCB_SEGZONE_T
deriving DecidableEq, Repr

/-- Endpoint selector, embedding `enum ENDPOINT_T` from `class_track.h`
(lines 50-53): `ENDPOINT_START = 0`, `ENDPOINT_END = 1`. -/
inductive ENDPOINT_T where
  | ENDPOINT_START
  | ENDPOINT_END
deriving DecidableEq, Repr

/-- Via types, embedding `enum VIATYPE_T` from `class_track.h` (lines 57-64). -/
inductive VIATYPE_T where
  | VIA_THROUGH
  | VIA_BLIND_BURIED
  | VIA_MICROVIA
  | VIA_NOT_DEFINED
deriving DecidableEq, Repr

/-- Embedding of the `TRACK` entity (`class_track.h` lines 93-358).
`uid` models the C++ object's address (pointer identity); `m_StructType`
models `EDA_ITEM::Type()`; `netCode` is the net code from
`BOARD_CONNECTED_ITEM`; `layerSet` is the `LSET` bitmask of layers the item
occupies; `isDeleted`/`isBusy` model the `IS_DELETED`/`BUSY` state flags. -/
structure TRACK where
  uid : Nat
  m_StructType : KICAD_T
  m_Start : wxPoint
  m_End : wxPoint
  m_Width : Int
  netCode : Int
  layerSet : Nat
  isDeleted : Bool
  isBusy : Bool
deriving DecidableEq, Repr

/-- Embedding of `TRACK::SetPosition` (`class_track.h` line 123):
`m_Start = aPos`. -/
def TRACK.SetPosition (t : TRACK) (aPos : wxPoint) : TRACK :=
  { t with m_Start := aPos }

/-- Embedding of `TRACK::GetPosition` (`class_track.h` line 124):
returns `m_Start`. -/
def TRACK.GetPosition (t : TRACK) : wxPoint :=
  t.m_Start

/-- Embedding of `TRACK::SetEnd` (`class_track.h` line 129). -/
def TRACK.SetEnd (t : TRACK) (aEnd : wxPoint) : TRACK :=
  { t with m_End := aEnd }

/-- Embedding of `TRACK::GetEnd` (`class_track.h` line 130). -/
def TRACK.GetEnd (t : TRACK) : wxPoint :=
  t.m_End

/-- Embedding of `TRACK::SetStart` (`class_track.h` line 132). -/
def TRACK.SetStart (t : TRACK) (aStart : wxPoint) : TRACK :=
  { t with m_Start := aStart }

/-- Embedding of `TRACK::GetStart` (`class_track.h` line 133). -/
def TRACK.GetStart (t : TRACK) : wxPoint :=
  t.m_Start

/-- Embedding of `TRACK::GetNetCode` (from `BOARD_CONNECTED_ITEM`). -/
def TRACK.GetNetCode (t : TRACK) : Int :=
  t.netCode

/-- Embedding of `TRACK::GetEndPoint` (`class_track.h` lines 137-143):
if the selector is `ENDPOINT_START` return `m_Start`, else return `m_End`. -/
def TRACK.GetEndPoint (t : TRACK) (aEndPoint : ENDPOINT_T) : wxPoint :=
  if aEndPoint = ENDPOINT_T.ENDPOINT_START then t.m_Start else t.m_End

/-- Embedding of `#define UNDEFINED_DRILL_DIAMETER -1`
(`class_track.h` line 66). -/
def UNDEFINED_DRILL_DIAMETER : Int := -1

/-- Embedding of the `VIA` entity (`class_track.h` lines 390-517), which
extends `TRACK` with the bottom layer, the via type and the drill value. -/
structure VIA extends TRACK where
  m_BottomLayer : Nat
  m_ViaType : VIATYPE_T
  m_Drill : Int
deriving DecidableEq, Repr

/-- Embedding of `VIA::GetPosition` (`class_track.h` line 440):
returns `m_Start`. -/
def VIA.GetPosition (v : VIA) : wxPoint :=
  v.m_Start

/-- Embedding of `VIA::SetPosition` (`class_track.h` line 441):
`m_Start = aPoint; m_End = aPoint`. -/
def VIA.SetPosition (v : VIA) (aPoint : wxPoint) : VIA :=
  { v with m_Start := aPoint, m_End := aPoint }

/-- Embedding of `VIA::SetDrill` (`class_track.h` line 476). -/
def VIA.SetDrill (v : VIA) (aDrill : Int) : VIA :=
  { v with m_Drill := aDrill }

/-- Embedding of `VIA::GetDrill` (`class_track.h` line 483). -/
def VIA.GetDrill (v : VIA) : Int :=
  v.m_Drill

/-- Embedding of `VIA::SetDrillDefault` (`class_track.h` line 497):
`m_Drill = UNDEFINED_DRILL_DIAMETER`. -/
def VIA.SetDrillDefault (v : VIA) : VIA :=
  { v with m_Drill := UNDEFINED_DRILL_DIAMETER }

/-- Embedding of `VIA::IsDrillDefault` (`class_track.h` line 503):
`return m_Drill <= 0`. -/
def VIA.IsDrillDefault (v : VIA) : Bool :=
  v.m_Drill ≤ 0

/-- Embedding of the inline free function `GetFirstVia`
(`class_track.h` lines 521-531). The chain starting at the cursor is the
list; the stop pointer is an optional entity compared by identity. The loop
advances while the current item is neither the stop point nor a via; on
exit, the current item is returned when its type is via, else NULL. -/
def GetFirstVia : List TRACK → Option TRACK → Option TRACK
  | [], _ => none
  | t :: rest, aStopPoint =>
    if some t ≠ aStopPoint ∧ t.m_StructType ≠ KICAD_T.PCB_VIA_T then
      GetFirstVia rest aStopPoint
    else if t.m_StructType = KICAD_T.PCB_VIA_T then
      some t
    else
      none

/-- A concrete via-typed chain entity used as test input. -/
def viaItem0 : TRACK :=
  { uid := 0, m_StructType := KICAD_T.PCB_VIA_T, m_Start := ⟨0, 0⟩,
    m_End := ⟨0, 0⟩, m_Width := 6, netCode := 1, layerSet := 1,
    isDeleted := false, isBusy := false }

/-- A concrete trace-typed chain entity used as test input. -/
def traceItem0 : TRACK :=
  { uid := 1, m_StructType := KICAD_T.PCB_TRACE_T, m_Start := ⟨0, 0⟩,
    m_End := ⟨10, 0⟩, m_Width := 4, netCode := 1, layerSet := 1,
    isDeleted := false, isBusy := false }

/-- A concrete via used as test input for the drill claims. -/
def via0 : VIA :=
  { toTRACK := viaItem0, m_BottomLayer := 31, m_ViaType := VIATYPE_T.VIA_THROUGH,
    m_Drill := 5 }

/-- Modelled from the spec: `TRACK::GetBestInsertPoint` (declared at
`class_track.h` lines 158-169; the implementation is in `class_track.cpp`,
which is not part of this excerpt). Per the header documentation it returns
"the next item after the last item having my net code" in the net-code-sorted
chain, i.e. the first entity whose net code is strictly greater than the
inserted entity's, and NULL when the best insertion point is the end of the
list. -/
def GetBestInsertPoint (myNetCode : Int) : List TRACK → Option TRACK
  | [] => none
  | t :: rest =>
    if myNetCode < t.netCode then some t else GetBestInsertPoint myNetCode rest

/-- Modelled from the spec: insertion of an entity into the chain immediately
before the entity returned by `GetBestInsertPoint` (the board's insert
primitive is outside this excerpt). The new entity is placed before the first
entity whose net code strictly exceeds its own, hence after the last entity
sharing its net code. -/
def insertTrack (t : TRACK) : List TRACK → List TRACK
  | [] => [t]
  | x :: rest =>
    if t.netCode < x.netCode then t :: x :: rest else x :: insertTrack t rest

/-- A single mutation of the chain: insertion of an entity at the position
chosen by `GetBestInsertPoint`, or removal of the entity at an index. -/
inductive ChainMutation where
  | ins (t : TRACK)
  | del (i : Nat)

/-- Modelled from the spec: applying one chain mutation. -/
def applyMutation (l : List TRACK) : ChainMutation → List TRACK
  | ChainMutation.ins t => insertTrack t l
  | ChainMutation.del i => l.eraseIdx i

/-- Modelled from the spec: applying a sequence of chain mutations in order. -/
def applyMutations (l : List TRACK) (ops : List ChainMutation) : List TRACK :=
  ops.foldl applyMutation l

/-- The chain invariant: entities appear in ascending net-code order. -/
def SortedByNetCode (l : List TRACK) : Prop :=
  List.Pairwise (fun a b => a.netCode ≤ b.netCode) l

instance : DecidablePred SortedByNetCode := fun l =>
  List.instDecidablePairwise l

/-- Membership in an inserted chain: the inserted entity or an original one. -/
theorem mem_insertTrack {u t : TRACK} {l : List TRACK}
    (h : u ∈ insertTrack t l) : u = t ∨ u ∈ l := by
  induction l with
  | nil => simpa [insertTrack] using h
  | cons x rest ih =>
    rw [insertTrack] at h
    by_cases hc : t.netCode < x.netCode
    · rw [if_pos hc] at h
      rcases List.mem_cons.mp h with h1 | h2
      · exact Or.inl h1
      · exact Or.inr h2
    · rw [if_neg hc] at h
      rcases List.mem_cons.mp h with h1 | h2
      · exact Or.inr (h1 ▸ List.mem_cons_self x rest)
      · rcases ih h2 with h3 | h4
        · exact Or.inl h3
        · exact Or.inr (List.mem_cons_of_mem x h4)

/-- Inserting at the `GetBestInsertPoint` position preserves the net-code
sort invariant. -/
theorem sortedByNetCode_insertTrack {l : List TRACK} (t : TRACK)
    (h : SortedByNetCode l) : SortedByNetCode (insertTrack t l) := by
  induction l with
  | nil => simp [insertTrack, SortedByNetCode]
  | cons x rest ih =>
    rw [SortedByNetCode, List.pairwise_cons] at h
    rw [insertTrack]
    by_cases hc : t.netCode < x.netCode
    · rw [if_pos hc]
      rw [SortedByNetCode, List.pairwise_cons]
      refine ⟨?_, List.Pairwise.cons h.1 h.2⟩
      intro u hu
      rcases List.mem_cons.mp hu with h1 | h2
      · exact h1 ▸ le_of_lt hc
      · exact le_trans (le_of_lt hc) (h.1 u h2)
    · rw [if_neg hc]
      rw [SortedByNetCode, List.pairwise_cons]
      refine ⟨?_, ih h.2⟩
      intro u hu
      rcases mem_insertTrack hu with h1 | h2
      · exact h1 ▸ le_of_not_lt hc
      · exact h.1 u h2

/-- Removing an entity preserves the net-code sort invariant. -/
theorem sortedByNetCode_eraseIdx {l : List TRACK} (i : Nat)
    (h : SortedByNetCode l) : SortedByNetCode (l.eraseIdx i) :=
  List.Pairwise.sublist (List.eraseIdx_sublist l i) h

/-- The insertion primitive realizes the `GetBestInsertPoint` contract: the
chain splits into a prefix and a suffix, the entity is inserted between them,
and `GetBestInsertPoint` returns exactly the head of that suffix (NULL when
the suffix is empty, i.e. insertion at the end). -/
theorem insertTrack_getBestInsertPoint (t : TRACK) (l : List TRACK) :
    ∃ l₁ l₂, l = l₁ ++ l₂ ∧ insertTrack t l = l₁ ++ t :: l₂ ∧
      GetBestInsertPoint t.netCode l = l₂.head? := by
  induction l with
  | nil => exact ⟨[], [], rfl, rfl, rfl⟩
  | cons x rest ih =>
    by_cases hc : t.netCode < x.netCode
    · exact ⟨[], x :: rest, rfl, by rw [insertTrack, if_pos hc]; rfl,
        by rw [GetBestInsertPoint, if_pos hc]; rfl⟩
    · obtain ⟨l₁, l₂, heq, hins, hbest⟩ := ih
      exact ⟨x :: l₁, l₂, by rw [heq]; rfl,
        by rw [insertTrack, if_neg hc, hins]; rfl,
        by rw [GetBestInsertPoint, if_neg hc]; exact hbest⟩

/-- C1: the ascending-net-code invariant of the board's chain is maintained
by each insertion (at the `GetBestInsertPoint` position) and by each removal
individually, hence by any sequence of such mutations, with no post-hoc
sort. -/
theorem track_chain_sorted_invariant (l : List TRACK) (ops : List ChainMutation)
    (h : SortedByNetCode l) :
    SortedByNetCode (applyMutations l ops) ∧
    (∀ t, SortedByNetCode (insertTrack t l)) ∧
    (∀ i, SortedByNetCode (l.eraseIdx i)) ∧
    (∀ t, ∃ l₁ l₂, l = l₁ ++ l₂ ∧ insertTrack t l = l₁ ++ t :: l₂ ∧
      GetBestInsertPoint t.netCode l = l₂.head?) := by
  refine ⟨?_, fun t => sortedByNetCode_insertTrack t h,
    fun i => sortedByNetCode_eraseIdx i h,
    fun t => insertTrack_getBestInsertPoint t l⟩
  induction ops generalizing l with
  | nil => exact h
  | cons op rest ih =>
    rw [applyMutations, List.foldl_cons]
    cases op with
    | ins t => exact ih _ (sortedByNetCode_insertTrack t h)
    | del i => exact ih _ (sortedByNetCode_eraseIdx i h)

/-- A second concrete trace entity, with a higher net code. -/
def traceItem1 : TRACK :=
  { uid := 2, m_StructType := KICAD_T.PCB_TRACE_T, m_Start := ⟨10, 0⟩,
    m_End := ⟨20, 0⟩, m_Width := 4, netCode := 3, layerSet := 1,
    isDeleted := false, isBusy := false }

/-- A third concrete trace entity, with an intermediate net code. -/
def traceItem2 : TRACK :=
  { uid := 3, m_StructType := KICAD_T.PCB_TRACE_T, m_Start := ⟨0, 5⟩,
    m_End := ⟨10, 5⟩, m_Width := 4, netCode := 2, layerSet := 1,
    isDeleted := false, isBusy := false }

/-- C1 witness: a concrete sorted chain stays sorted under a concrete
insertion-and-removal sequence. -/
theorem track_chain_sorted_invariant_witness :
    SortedByNetCode (applyMutations [traceItem0, traceItem1]
      [ChainMutation.ins traceItem2, ChainMutation.del 0]) :=
  (track_chain_sorted_invariant [traceItem0, traceItem1]
    [ChainMutation.ins traceItem2, ChainMutation.del 0] (by decide)).1

/-- C2: on a chain sorted ascending by net code, `GetBestInsertPoint` for net
code N returns the first entity whose net code is strictly greater than N
(every entity before it has net code at most N), and returns NULL exactly
when no entity has a net code greater than N — in particular when N is the
maximum net code present or the chain is empty. -/
theorem getBestInsertPoint_spec (N : Int) (l : List TRACK)
    (h : SortedByNetCode l) :
    (∀ t, GetBestInsertPoint N l = some t →
      t ∈ l ∧ N < t.netCode ∧
      ∃ l₁ l₂, l = l₁ ++ t :: l₂ ∧ ∀ u ∈ l₁, u.netCode ≤ N) ∧
    (GetBestInsertPoint N l = none ↔ ∀ t ∈ l, t.netCode ≤ N) ∧
    GetBestInsertPoint N ([] : List TRACK) = none := by
  refine ⟨?_, ?_, rfl⟩
  · clear h
    induction l with
    | nil => intro t h; exact absurd h (by simp [GetBestInsertPoint])
    | cons x rest ih =>
      intro t ht
      rw [GetBestInsertPoint] at ht
      by_cases hc : N < x.netCode
      · rw [if_pos hc] at ht
        have hxt : x = t := by simpa using ht
        subst hxt
        exact ⟨List.mem_cons_self x rest, hc, [], rest, rfl, by simp⟩
      · rw [if_neg hc] at ht
        obtain ⟨hmem, hlt, l₁, l₂, heq, hall⟩ := ih t ht
        refine ⟨List.mem_cons_of_mem x hmem, hlt, x :: l₁, l₂, by rw [heq]; rfl, ?_⟩
        intro u hu
        rcases List.mem_cons.mp hu with h1 | h2
        · exact h1 ▸ le_of_not_lt hc
        · exact hall u h2
  · clear h
    induction l with
    | nil => simp [GetBestInsertPoint]
    | cons x rest ih =>
      rw [GetBestInsertPoint]
      by_cases hc : N < x.netCode
      · rw [if_pos hc]
        simp only [List.mem_cons]
        constructor
        · intro h; exact absurd h (by simp)
        · intro h; exact absurd (h x (Or.inl rfl)) (not_le.mpr hc)
      · rw [if_neg hc]
        rw [ih]
        constructor
        · intro h u hu
          rcases List.mem_cons.mp hu with h1 | h2
          · exact h1 ▸ le_of_not_lt hc
          · exact h u h2
        · intro h u hu
          exact h u (List.mem_cons_of_mem x hu)

/-- C2 witness: on a concrete sorted chain with net codes 1 and 3, the
insertion point for net code 1 is the net-code-3 entity, and for net code 3
it is NULL (insert at end). -/
theorem getBestInsertPoint_spec_witness :
    GetBestInsertPoint 3 [traceItem0, traceItem1] = none ∧
    traceItem1 ∈ [traceItem0, traceItem1] ∧ (1 : Int) < traceItem1.netCode :=
  ⟨((getBestInsertPoint_spec 3 [traceItem0, traceItem1] (by decide)).2.1).mpr
      (by decide),
    ((getBestInsertPoint_spec 1 [traceItem0, traceItem1] (by decide)).1
      traceItem1 (by decide)).1,
    ((getBestInsertPoint_spec 1 [traceItem0, traceItem1] (by decide)).1
      traceItem1 (by decide)).2.1⟩

/-- C3: setting the position of a trace and reading it back yields the same
point; setting the position of a via forces both endpoints (and hence the
position) to that point. -/
theorem setPosition_getPosition_roundtrip (t : TRACK) (v : VIA) (p : wxPoint) :
    (t.SetPosition p).GetPosition = p ∧
    ((v.SetPosition p).GetStart = p ∧ (v.SetPosition p).GetEnd = p ∧
      (v.SetPosition p).GetPosition = p) := by
  refine ⟨rfl, rfl, rfl, rfl⟩

/-- C4: `IsDrillDefault` is true exactly when the stored drill is non-positive
(not only for the sentinel −1); `SetDrillDefault` stores
`UNDEFINED_DRILL_DIAMETER = −1`, after which `IsDrillDefault` is true, and a
stored drill of `0` also reports default. -/
theorem isDrillDefault_spec (v : VIA) :
    (v.IsDrillDefault = true ↔ v.m_Drill ≤ 0) ∧
    v.SetDrillDefault.m_Drill = UNDEFINED_DRILL_DIAMETER ∧
    UNDEFINED_DRILL_DIAMETER = -1 ∧
    v.SetDrillDefault.IsDrillDefault = true ∧
    (v.SetDrill 0).IsDrillDefault = true := by
  refine ⟨?_, rfl, rfl, ?_, ?_⟩
  · simp [VIA.IsDrillDefault]
  · simp [VIA.IsDrillDefault, VIA.SetDrillDefault, UNDEFINED_DRILL_DIAMETER]
  · simp [VIA.IsDrillDefault, VIA.SetDrill]

/-- C9: `GetEndPoint` is total — it is defined for every selector value;
`ENDPOINT_START` yields the start point and every other selector value
(that is, `ENDPOINT_END`) yields the end point, with no error branch. -/
theorem getEndPoint_total (t : TRACK) :
    t.GetEndPoint ENDPOINT_T.ENDPOINT_START = t.m_Start ∧
    t.GetEndPoint ENDPOINT_T.ENDPOINT_END = t.m_End ∧
    ∀ s : ENDPOINT_T, s ≠ ENDPOINT_T.ENDPOINT_START → t.GetEndPoint s = t.m_End := by
  refine ⟨rfl, rfl, ?_⟩
  intro s hs
  cases s with
  | ENDPOINT_START => exact absurd rfl hs
  | ENDPOINT_END => rfl

/-- C9 witness: on the concrete trace, the non-start selector returns the end
point. -/
theorem getEndPoint_total_witness :
    traceItem0.GetEndPoint ENDPOINT_T.ENDPOINT_END = traceItem0.m_End :=
  (getEndPoint_total traceItem0).2.2 ENDPOINT_T.ENDPOINT_END (by decide)

/-- Modelled from the spec: whether some other entity of the run connects to
the point `p` of entity `s` (either of the other entity's endpoints
coincides with `p`). Used by the endpoint-extremity detection of
`TRACK::GetEndSegments`, whose implementation is in `class_track.cpp` and
not part of this excerpt. -/
def connectedAt (l : List TRACK) (s : TRACK) (p : wxPoint) : Bool :=
  l.any fun u => decide (u ≠ s ∧ (u.m_Start = p ∨ u.m_End = p))

/-- Modelled from the spec: `TRACK::GetEndSegments` (declared at
`class_track.h` line 287; implementation in `class_track.cpp`, not part of
this excerpt). On a contiguous run of segments forming one connected path it
finds the two extreme segments: the one whose start point has no
predecessor, and the one whose end point has no successor. `some (a, b)`
models the success return value 1 with `*StartTrack = a` and
`*EndTrack = b`; `none` models the closed-loop return value 0, produced
when every segment connects to another at both ends. -/
def GetEndSegments (l : List TRACK) : Option (TRACK × TRACK) :=
  match l.find? (fun s => !connectedAt l s s.m_Start),
        l.find? (fun s => !connectedAt l s s.m_End) with
  | some a, some b => some (a, b)
  | _, _ => none

/-- Path segment A(0,0)-(1,0) of the specification's worked example. -/
def segA : TRACK :=
  { uid := 10, m_StructType := KICAD_T.PCB_TRACE_T, m_Start := ⟨0, 0⟩,
    m_End := ⟨1, 0⟩, m_Width := 1, netCode := 1, layerSet := 1,
    isDeleted := false, isBusy := false }

/-- Path segment B(1,0)-(2,0) of the specification's worked example. -/
def segB : TRACK :=
  { uid := 11, m_StructType := KICAD_T.PCB_TRACE_T, m_Start := ⟨1, 0⟩,
    m_End := ⟨2, 0⟩, m_Width := 1, netCode := 1, layerSet := 1,
    isDeleted := false, isBusy := false }

/-- Path segment C(2,0)-(3,0) of the specification's worked example. -/
def segC : TRACK :=
  { uid := 12, m_StructType := KICAD_T.PCB_TRACE_T, m_Start := ⟨2, 0⟩,
    m_End := ⟨3, 0⟩, m_Width := 1, netCode := 1, layerSet := 1,
    isDeleted := false, isBusy := false }

/-- Path segment D(3,0)-(0,0), closing the loop in the specification's
worked example. -/
def segD : TRACK :=
  { uid := 13, m_StructType := KICAD_T.PCB_TRACE_T, m_Start := ⟨3, 0⟩,
    m_End := ⟨0, 0⟩, m_Width := 1, netCode := 1, layerSet := 1,
    isDeleted := false, isBusy := false }

/-- C5: `GetEndSegments` reports success with the two extreme segments — a
first segment whose start point no other segment touches and a last segment
whose end point no other segment touches — and reports the distinct
closed-loop value when every segment connects to another at both ends; on
the worked example A(0,0)-(1,0), B(1,0)-(2,0), C(2,0)-(3,0) it succeeds with
(A, C), and adding D(3,0)-(0,0) yields the closed-loop result. -/
theorem getEndSegments_spec :
    (∀ l : List TRACK,
      (∀ s ∈ l, connectedAt l s s.m_Start = true ∧ connectedAt l s s.m_End = true) →
      GetEndSegments l = none) ∧
    (∀ (l : List TRACK) (a b : TRACK), GetEndSegments l = some (a, b) →
      a ∈ l ∧ b ∈ l ∧ connectedAt l a a.m_Start = false ∧
        connectedAt l b b.m_End = false) ∧
    GetEndSegments [segA, segB, segC] = some (segA, segC) ∧
    GetEndSegments [segA, segB, segC, segD] = none := by
  refine ⟨?_, ?_, by decide, by decide⟩
  · intro l h
    have hs : l.find? (fun s => !connectedAt l s s.m_Start) = none := by
      rw [List.find?_eq_none]
      intro s hs
      simpa using (h s hs).1
    rw [GetEndSegments, hs]
  · intro l a b h
    rw [GetEndSegments] at h
    cases hs : l.find? (fun s => !connectedAt l s s.m_Start) with
    | none => rw [hs] at h; exact absurd h (by simp)
    | some a' =>
      cases he : l.find? (fun s => !connectedAt l s s.m_End) with
      | none => rw [hs, he] at h; exact absurd h (by simp)
      | some b' =>
        rw [hs, he] at h
        simp only [Option.some.injEq, Prod.mk.injEq] at h
        obtain ⟨ha, hb⟩ := h
        subst ha; subst hb
        refine ⟨List.mem_of_find?_eq_some hs, List.mem_of_find?_eq_some he, ?_, ?_⟩
        · simpa using List.find?_some hs
        · simpa using List.find?_some he

/-- C5 witness: on a concrete fully-connected run, the closed-loop result is
produced via the general characterization. -/
theorem getEndSegments_spec_witness :
    GetEndSegments [segA, segB, segC, segD] = none :=
  getEndSegments_spec.1 [segA, segB, segC, segD] (by decide)

/-- Modelled from the spec: the all-bits-set `LSET` layer-mask value that the
free function `GetTrack` receives as "-1", meaning "ignore layer". The mask
is a 64-bit word, so "-1" is `2 ^ 64 - 1`. -/
def LSET_ALL : Nat := 2 ^ 64 - 1

/-- Modelled from the spec: the match predicate of the free function
`GetTrack` (declared at `class_track.h` lines 90-91; implementation in
`class_track.cpp`, not part of this excerpt). An entity matches when it is
neither deleted nor busy, one of its endpoints equals the probed position,
and its layer set intersects the layer mask. -/
def trackMatchesAt (aPosition : wxPoint) (aLayerMask : Nat) (t : TRACK) : Bool :=
  !t.isDeleted && !t.isBusy &&
    decide (t.m_Start = aPosition ∨ t.m_End = aPosition) &&
    decide (aLayerMask &&& t.layerSet ≠ 0)

/-- Modelled from the spec: the free function `GetTrack` — scan forward from
the start cursor, stopping before the optional end cursor (NULL meaning scan
to the end of the chain), and return the first entity matching
`trackMatchesAt`, or NULL when none matches. -/
def GetTrack : List TRACK → Option TRACK → wxPoint → Nat → Option TRACK
  | [], _, _, _ => none
  | t :: rest, aEndTrace, aPosition, aLayerMask =>
    if some t = aEndTrace then none
    else if trackMatchesAt aPosition aLayerMask t then some t
    else GetTrack rest aEndTrace aPosition aLayerMask

/-- C6: the free `GetTrack` returns the first entity, in scan order and
strictly before the end cursor (or to the chain end when the end cursor is
NULL), that passes the match predicate; entities flagged deleted or busy
never match, and with the all-bits-set mask (the "-1" value) the layer
restriction is vacuous: masking any 64-bit layer set with it is the
identity, so any entity occupying at least one layer passes the layer
test. -/
theorem getTrack_scan_spec :
    (∀ (l : List TRACK) (stop : Option TRACK) (p : wxPoint) (mask : Nat),
      GetTrack l stop p mask =
        (l.takeWhile fun t => decide (some t ≠ stop)).find? (trackMatchesAt p mask)) ∧
    (∀ (p : wxPoint) (mask : Nat) (t : TRACK),
      (t.isDeleted = true ∨ t.isBusy = true) → trackMatchesAt p mask t = false) ∧
    (∀ t : TRACK, t.layerSet < 2 ^ 64 → LSET_ALL &&& t.layerSet = t.layerSet) ∧
    (∀ (l : List TRACK) (stop : Option TRACK) (p : wxPoint) (mask : Nat),
      GetTrack l stop p mask = none ↔
        ∀ t ∈ l.takeWhile fun t => decide (some t ≠ stop),
          trackMatchesAt p mask t = false) := by
  have key : ∀ (l : List TRACK) (stop : Option TRACK) (p : wxPoint) (mask : Nat),
      GetTrack l stop p mask =
        (l.takeWhile fun t => decide (some t ≠ stop)).find? (trackMatchesAt p mask) := by
    intro l stop p mask
    induction l with
    | nil => rfl
    | cons t rest ih =>
      rw [GetTrack]
      by_cases hstop : some t = stop
      · have hp : ¬((fun u : TRACK => decide (some u ≠ stop)) t = true) := by
          simp [hstop]
        rw [if_pos hstop, List.takeWhile_cons, if_neg hp]
        rfl
      · have hp : (fun u : TRACK => decide (some u ≠ stop)) t = true := by
          simp [hstop]
        rw [if_neg hstop, List.takeWhile_cons, if_pos hp]
        by_cases hm : trackMatchesAt p mask t
        · rw [if_pos hm, List.find?_cons_of_pos _ hm]
        · rw [if_neg hm, List.find?_cons_of_neg _ hm, ih]
  refine ⟨key, ?_, ?_, ?_⟩
  · intro p mask t h
    rcases h with h | h <;>
      simp [trackMatchesAt, h]
  · intro t h
    rw [LSET_ALL, Nat.land_comm, Nat.and_pow_two_sub_one_eq_mod,
      Nat.mod_eq_of_lt h]
  · intro l stop p mask
    rw [key, List.find?_eq_none]
    constructor
    · intro h t ht
      exact Bool.eq_false_iff.mpr (h t ht)
    · intro h t ht
      exact Bool.eq_false_iff.mp (h t ht)

/-- C6 witness: on a concrete chain with a deleted entity first, the scan
skips it and returns the matching live entity; the deleted entity itself
never matches; and the all-ones mask leaves a concrete layer set intact. -/
theorem getTrack_scan_spec_witness :
    trackMatchesAt ⟨0, 0⟩ LSET_ALL
      { traceItem0 with isDeleted := true } = false ∧
    LSET_ALL &&& traceItem0.layerSet = traceItem0.layerSet ∧
    GetTrack [traceItem0] none ⟨0, 0⟩ LSET_ALL =
      ([traceItem0].takeWhile fun t => decide (some t ≠ none)).find?
        (trackMatchesAt ⟨0, 0⟩ LSET_ALL) :=
  ⟨getTrack_scan_spec.2.1 ⟨0, 0⟩ LSET_ALL _ (Or.inl rfl),
    getTrack_scan_spec.2.2.1 traceItem0 (by decide),
    getTrack_scan_spec.1 [traceItem0] none ⟨0, 0⟩ LSET_ALL⟩

/-- Modelled from the spec: the `STARTPOINT` status bit returned by
`TRACK::IsPointOnEnds` when the probed point is near the start endpoint. -/
def STARTPOINT : Nat := 1

/-- Modelled from the spec: the `ENDPOINT` status bit returned by
`TRACK::IsPointOnEnds` when the probed point is near the end endpoint. -/
def ENDPOINT : Nat := 2

/-- Squared Euclidean distance between two integer points. -/
def sqDist (a b : wxPoint) : Int :=
  (a.x - b.x) ^ 2 + (a.y - b.y) ^ 2

/-- Modelled from the spec: the effective proximity distance of
`TRACK::IsPointOnEnds` — `min_dist` itself when non-negative, else half the
segment's width. -/
def effectiveDist (t : TRACK) (min_dist : Int) : Int :=
  if min_dist < 0 then t.m_Width / 2 else min_dist

/-- Modelled from the spec: `TRACK::IsPointOnEnds` (declared at
`class_track.h` line 221; implementation in `class_track.cpp`, not part of
this excerpt). Returns the bitwise union of `STARTPOINT` when the point is
within the effective distance of the start endpoint and `ENDPOINT` when it
is within the effective distance of the end endpoint (0 when near neither).
Being within distance `d ≥ 0` is expressed by the squared-distance
comparison. -/
def IsPointOnEnds (t : TRACK) (point : wxPoint) (min_dist : Int) : Nat :=
  (if sqDist t.m_Start point ≤ effectiveDist t min_dist ^ 2 then STARTPOINT else 0) +
  (if sqDist t.m_End point ≤ effectiveDist t min_dist ^ 2 then ENDPOINT else 0)

/-- The width-10 probe segment (0,0)-(100,0) of the specification's worked
example for `IsPointOnEnds`. -/
def wideSeg : TRACK :=
  { uid := 20, m_StructType := KICAD_T.PCB_TRACE_T, m_Start := ⟨0, 0⟩,
    m_End := ⟨100, 0⟩, m_Width := 10, netCode := 1, layerSet := 1,
    isDeleted := false, isBusy := false }

/-- The width-2 variant of the probe segment of the specification's worked
example for `IsPointOnEnds`. -/
def narrowSeg : TRACK :=
  { wideSeg with uid := 21, m_Width := 2 }

/-- C8: `IsPointOnEnds` returns a bitmask whose `STARTPOINT` bit is set
exactly when the point is within the effective distance of the start
endpoint and whose `ENDPOINT` bit is set exactly when it is within the
effective distance of the end endpoint (0 when near neither, both bits when
near both), the effective distance being `min_dist` when non-negative and
half the width when negative; on the worked example, point (3,0) with
`min_dist = -1` is near the start of the width-10 segment (0,0)-(100,0) but
not near the start of the width-2 variant. -/
theorem isPointOnEnds_spec (t : TRACK) (point : wxPoint) (min_dist : Int) :
    (IsPointOnEnds t point min_dist &&& STARTPOINT ≠ 0 ↔
      sqDist t.m_Start point ≤ effectiveDist t min_dist ^ 2) ∧
    (IsPointOnEnds t point min_dist &&& ENDPOINT ≠ 0 ↔
      sqDist t.m_End point ≤ effectiveDist t min_dist ^ 2) ∧
    (¬ sqDist t.m_Start point ≤ effectiveDist t min_dist ^ 2 →
      ¬ sqDist t.m_End point ≤ effectiveDist t min_dist ^ 2 →
      IsPointOnEnds t point min_dist = 0) ∧
    (min_dist < 0 → effectiveDist t min_dist = t.m_Width / 2) ∧
    (0 ≤ min_dist → effectiveDist t min_dist = min_dist) ∧
    IsPointOnEnds wideSeg ⟨3, 0⟩ (-1) &&& STARTPOINT ≠ 0 ∧
    IsPointOnEnds narrowSeg ⟨3, 0⟩ (-1) &&& STARTPOINT = 0 := by
  refine ⟨?_, ?_, ?_, ?_, ?_, by decide, by decide⟩
  · rw [IsPointOnEnds]
    by_cases h1 : sqDist t.m_Start point ≤ effectiveDist t min_dist ^ 2 <;>
      by_cases h2 : sqDist t.m_End point ≤ effectiveDist t min_dist ^ 2 <;>
        simp [h1, h2, STARTPOINT, ENDPOINT]
  · rw [IsPointOnEnds]
    by_cases h1 : sqDist t.m_Start point ≤ effectiveDist t min_dist ^ 2 <;>
      by_cases h2 : sqDist t.m_End point ≤ effectiveDist t min_dist ^ 2 <;>
        simp [h1, h2, STARTPOINT, ENDPOINT]
  · intro h1 h2
    rw [IsPointOnEnds, if_neg h1, if_neg h2]
  · intro h
    rw [effectiveDist, if_pos h]
  · intro h
    rw [effectiveDist, if_neg (not_lt.mpr h)]

/-- C8 witness: on the width-10 worked example with `min_dist = -1`, the
effective distance is half the width, and the near-start condition at (3,0)
matches the start bit being set. -/
theorem isPointOnEnds_spec_witness :
    effectiveDist wideSeg (-1) = wideSeg.m_Width / 2 ∧
    (IsPointOnEnds wideSeg ⟨3, 0⟩ (-1) &&& STARTPOINT ≠ 0 ↔
      sqDist wideSeg.m_Start ⟨3, 0⟩ ≤ effectiveDist wideSeg (-1) ^ 2) :=
  ⟨(isPointOnEnds_spec wideSeg ⟨3, 0⟩ (-1)).2.2.2.1 (by decide),
    (isPointOnEnds_spec wideSeg ⟨3, 0⟩ (-1)).1⟩

/-- C10 counterexample: when the stop entity is itself a via and the scan
reaches it, `GetFirstVia` returns the stop entity — contradicting the claim
that the stop entity is never returned. -/
theorem getFirstVia_stop_via_counterexample :
    viaItem0.m_StructType = KICAD_T.PCB_VIA_T ∧
    GetFirstVia [viaItem0] (some viaItem0) = some viaItem0 := by
  constructor
  · rfl
  · decide

/-- C10 (amended): `GetFirstVia` returns the first via at or after the start
cursor that occurs no later than the stop entity; it returns NULL on a NULL
start pointer, when a non-via stop entity is reached before any via, and
when no via occurs at all; when the scan reaches the stop entity and the
stop entity is itself a via, the stop entity is returned. -/
theorem getFirstVia_characterization :
    (∀ stop, GetFirstVia [] stop = none) ∧
    (∀ l stop v, GetFirstVia l stop = some v →
      v.m_StructType = KICAD_T.PCB_VIA_T ∧
      ∃ l₁ l₂, l = l₁ ++ v :: l₂ ∧
        ∀ u ∈ l₁, some u ≠ stop ∧ u.m_StructType ≠ KICAD_T.PCB_VIA_T) ∧
    (∀ (l : List TRACK) stop, (∀ u ∈ l, u.m_StructType ≠ KICAD_T.PCB_VIA_T) →
      GetFirstVia l stop = none) ∧
    (∀ (l₁ : List TRACK) (t : TRACK) (l₂ : List TRACK),
      (∀ u ∈ l₁, u ≠ t ∧ u.m_StructType ≠ KICAD_T.PCB_VIA_T) →
      t.m_StructType ≠ KICAD_T.PCB_VIA_T →
      GetFirstVia (l₁ ++ t :: l₂) (some t) = none) ∧
    (∀ (l₁ : List TRACK) (t : TRACK) (l₂ : List TRACK),
      (∀ u ∈ l₁, u ≠ t ∧ u.m_StructType ≠ KICAD_T.PCB_VIA_T) →
      t.m_StructType = KICAD_T.PCB_VIA_T →
      GetFirstVia (l₁ ++ t :: l₂) (some t) = some t) := by
  refine ⟨fun stop => rfl, ?_, ?_, ?_, ?_⟩
  · intro l
    induction l with
    | nil => intro stop v h; exact absurd h (by simp [GetFirstVia])
    | cons a rest ih =>
      intro stop v h
      rw [GetFirstVia] at h
      by_cases hc : some a ≠ stop ∧ a.m_StructType ≠ KICAD_T.PCB_VIA_T
      · rw [if_pos hc] at h
        obtain ⟨hv, l₁, l₂, heq, hall⟩ := ih stop v h
        exact ⟨hv, a :: l₁, l₂, by rw [heq]; rfl,
          fun u hu => by
            rcases List.mem_cons.mp hu with h1 | h2
            · exact h1 ▸ ⟨hc.1, hc.2⟩
            · exact hall u h2⟩
      · rw [if_neg hc] at h
        by_cases hv : a.m_StructType = KICAD_T.PCB_VIA_T
        · rw [if_pos hv] at h
          refine ⟨(Option.some.injEq _ _ ▸ h) ▸ hv, [], rest, ?_, by simp⟩
          simp [← Option.some.injEq v a |>.mp h.symm]
        · rw [if_neg hv] at h
          exact absurd h (by simp)
  · intro l
    induction l with
    | nil => intro stop _; rfl
    | cons a rest ih =>
      intro stop hall
      rw [GetFirstVia]
      have hv : a.m_StructType ≠ KICAD_T.PCB_VIA_T := hall a (List.mem_cons_self a rest)
      by_cases hc : some a ≠ stop ∧ a.m_StructType ≠ KICAD_T.PCB_VIA_T
      · rw [if_pos hc]
        exact ih stop fun u hu => hall u (List.mem_cons_of_mem a hu)
      · rw [if_neg hc, if_neg hv]
  · intro l₁
    induction l₁ with
    | nil =>
      intro t l₂ _ hv
      rw [List.nil_append, GetFirstVia, if_neg (by simp), if_neg hv]
    | cons a rest ih =>
      intro t l₂ hall hv
      rw [List.cons_append, GetFirstVia,
        if_pos ⟨by simp [(hall a (List.mem_cons_self a rest)).1],
                (hall a (List.mem_cons_self a rest)).2⟩]
      exact ih t l₂ (fun u hu => hall u (List.mem_cons_of_mem a hu)) hv
  · intro l₁
    induction l₁ with
    | nil =>
      intro t l₂ _ hv
      rw [List.nil_append, GetFirstVia, if_neg (by simp), if_pos hv]
    | cons a rest ih =>
      intro t l₂ hall hv
      rw [List.cons_append, GetFirstVia,
        if_pos ⟨by simp [(hall a (List.mem_cons_self a rest)).1],
                (hall a (List.mem_cons_self a rest)).2⟩]
      exact ih t l₂ (fun u hu => hall u (List.mem_cons_of_mem a hu)) hv

/-- C10 witness: on a concrete two-entity chain whose stop entity is a via,
the scan returns the stop entity, and a trace-only chain yields NULL. -/
theorem getFirstVia_characterization_witness :
    GetFirstVia [traceItem0, viaItem0] (some viaItem0) = some viaItem0 ∧
    GetFirstVia [traceItem0] none = none :=
  ⟨getFirstVia_characterization.2.2.2.2 [traceItem0] viaItem0 []
      (by decide) (by decide),
    getFirstVia_characterization.2.2.1 [traceItem0] none (by decide)⟩

noncomputable section

open Real

/-- Modelled from the spec: corner `k` of the `n`-segment polygonal
approximation of a circle of radius `r` centered at `c`, as generated for a
via by `TRACK::TransformShapeWithClearanceToPolygon` (declared at
`class_track.h` lines 209-213; implementation in `class_track.cpp`, not part
of this excerpt). -/
def circleApproxVertex (c : ℝ × ℝ) (r : ℝ) (n k : ℕ) : ℝ × ℝ :=
  (c.1 + r * Real.cos (2 * π * k / n), c.2 + r * Real.sin (2 * π * k / n))

/-- Modelled from the spec: the corner set of the `n`-segment circle
approximation of radius `r` centered at `c`. -/
def circleApproxVertices (c : ℝ × ℝ) (r : ℝ) (n : ℕ) : Set (ℝ × ℝ) :=
  { p | ∃ k, k < n ∧ p = circleApproxVertex c r n k }

/-- Modelled from the spec: the region bounded by the polygon produced by
`TRACK::TransformShapeWithClearanceToPolygon` for a via of radius `R` with
clearance `C`: the clearance disc radius `R + C` is scaled by the
caller-supplied correction factor and approximated by an
`aCircleToSegmentsCount`-gon; the bounded region is the convex hull of its
corners. -/
def TransformShapeWithClearanceToPolygon (c : ℝ × ℝ) (R C : ℝ)
    (aCircleToSegmentsCount : ℕ) (aCorrectionFactor : ℝ) : Set (ℝ × ℝ) :=
  convexHull ℝ
    (circleApproxVertices c ((R + C) * aCorrectionFactor) aCircleToSegmentsCount)

/-- The closed disc of the given radius centered at `c`. -/
def closedDisc (c : ℝ × ℝ) (rho : ℝ) : Set (ℝ × ℝ) :=
  { p | (p.1 - c.1) ^ 2 + (p.2 - c.2) ^ 2 ≤ rho ^ 2 }

/-- Product-to-sum identity used by the polygon coverage proof. -/
theorem two_sin_mul_cos (u v : ℝ) :
    2 * Real.sin u * Real.cos v = Real.sin (u + v) + Real.sin (u - v) := by
  rw [Real.sin_add, Real.sin_sub]
  ring

/-- Interpolation identity for the cosine coordinate. -/
theorem tri_cos (A B T : ℝ) :
    Real.sin (B - T) * Real.cos A + Real.sin (T - A) * Real.cos B =
      Real.sin (B - A) * Real.cos T := by
  rw [Real.sin_sub, Real.sin_sub, Real.sin_sub]
  ring

/-- Interpolation identity for the sine coordinate. -/
theorem tri_sin (A B T : ℝ) :
    Real.sin (B - T) * Real.sin A + Real.sin (T - A) * Real.sin B =
      Real.sin (B - A) * Real.sin T := by
  rw [Real.sin_sub, Real.sin_sub, Real.sin_sub]
  ring

/-- Sum-to-product identity used to bound the barycentric weights. -/
theorem sin_sub_add_sin_sub (A B T : ℝ) :
    Real.sin (B - T) + Real.sin (T - A) =
      2 * Real.sin ((B - A) / 2) * Real.cos ((A + B) / 2 - T) := by
  rw [two_sin_mul_cos]
  congr 1 <;> congr 1 <;> ring

/-- The sum of the `n`-th roots of unity vanishes for `n ≥ 2`, in the
exponential form used by the circle approximation. -/
theorem sum_circle_exp_eq_zero {n : ℕ} (hn : 2 ≤ n) :
    ∑ k ∈ Finset.range n,
      Complex.exp (((2 * π * k / n : ℝ) : ℂ) * Complex.I) = 0 := by
  have hn0 : (n : ℝ) ≠ 0 := by
    have : 0 < n := by omega
    exact_mod_cast this.ne'
  have hterm : ∀ k : ℕ,
      Complex.exp (((2 * π * k / n : ℝ) : ℂ) * Complex.I) =
        Complex.exp (((2 * π / n : ℝ) : ℂ) * Complex.I) ^ k := by
    intro k
    rw [← Complex.exp_nat_mul]
    congr 1
    push_cast
    ring
  have hpow : Complex.exp (((2 * π / n : ℝ) : ℂ) * Complex.I) ^ n = 1 := by
    rw [← Complex.exp_nat_mul]
    have hnC : (n : ℂ) ≠ 0 := by exact_mod_cast hn0
    have harg : (n : ℂ) * (((2 * π / n : ℝ) : ℂ) * Complex.I) =
        2 * (π : ℂ) * Complex.I := by
      push_cast
      field_simp
    rw [harg, Complex.exp_two_pi_mul_I]
  have hne : Complex.exp (((2 * π / n : ℝ) : ℂ) * Complex.I) ≠ 1 := by
    rw [Ne, Complex.exp_eq_one_iff]
    rintro ⟨m, hm⟩
    have him := congrArg Complex.im hm
    simp [Complex.mul_im, Complex.ofReal_re, Complex.ofReal_im,
      Complex.I_re, Complex.I_im] at him
    have hπ := Real.pi_pos
    have hnn : (2 : ℝ) ≤ (n : ℝ) := by exact_mod_cast hn
    rcases le_or_lt (m : ℝ) 0 with hm0 | hm0
    · have h1 : 0 < 2 * π / (n : ℝ) := by positivity
      nlinarith
    · have h1 : (1 : ℝ) ≤ (m : ℝ) := by
        have : (0 : ℤ) < m := by exact_mod_cast hm0
        exact_mod_cast this
      have h2 : 2 * π / (n : ℝ) ≤ π := by
        rw [div_le_iff (by positivity)]
        nlinarith
      nlinarith
  calc ∑ k ∈ Finset.range n,
        Complex.exp (((2 * π * k / n : ℝ) : ℂ) * Complex.I)
      = ∑ k ∈ Finset.range n,
          Complex.exp (((2 * π / n : ℝ) : ℂ) * Complex.I) ^ k :=
        Finset.sum_congr rfl fun k _ => hterm k
    _ = (Complex.exp (((2 * π / n : ℝ) : ℂ) * Complex.I) ^ n - 1) /
          (Complex.exp (((2 * π / n : ℝ) : ℂ) * Complex.I) - 1) :=
        geom_sum_eq hne n
    _ = 0 := by rw [hpow]; simp

/-- The cosines of the `n` equally spaced circle angles sum to zero. -/
theorem sum_circle_cos_eq_zero {n : ℕ} (hn : 2 ≤ n) :
    ∑ k ∈ Finset.range n, Real.cos (2 * π * k / n) = 0 := by
  calc ∑ k ∈ Finset.range n, Real.cos (2 * π * k / n)
      = ∑ k ∈ Finset.range n,
          (Complex.exp (((2 * π * k / n : ℝ) : ℂ) * Complex.I)).re :=
        Finset.sum_congr rfl fun k _ => (Complex.exp_ofReal_mul_I_re _).symm
    _ = 0 := by rw [← Complex.re_sum, sum_circle_exp_eq_zero hn, Complex.zero_re]

/-- The sines of the `n` equally spaced circle angles sum to zero. -/
theorem sum_circle_sin_eq_zero {n : ℕ} (hn : 2 ≤ n) :
    ∑ k ∈ Finset.range n, Real.sin (2 * π * k / n) = 0 := by
  calc ∑ k ∈ Finset.range n, Real.sin (2 * π * k / n)
      = ∑ k ∈ Finset.range n,
          (Complex.exp (((2 * π * k / n : ℝ) : ℂ) * Complex.I)).im :=
        Finset.sum_congr rfl fun k _ => (Complex.exp_ofReal_mul_I_im _).symm
    _ = 0 := by rw [← Complex.im_sum, sum_circle_exp_eq_zero hn, Complex.zero_im]


/-- The center of the approximated circle is the centroid of the polygon
corners, hence lies in their convex hull. -/
theorem center_mem_circleApproxHull {n : ℕ} (hn : 2 ≤ n) (c : ℝ × ℝ) (r : ℝ) :
    c ∈ convexHull ℝ (circleApproxVertices c r n) := by
  have hn0 : (0 : ℝ) < n := by exact_mod_cast (by omega : 0 < n)
  have h₀ : ∀ i ∈ Finset.range n, (0 : ℝ) ≤ (n : ℝ)⁻¹ := fun i _ => by positivity
  have h₁ : ∑ i ∈ Finset.range n, (n : ℝ)⁻¹ = 1 := by
    rw [Finset.sum_const, Finset.card_range, nsmul_eq_mul]
    field_simp
  have hz : ∀ i ∈ Finset.range n,
      circleApproxVertex c r n i ∈ convexHull ℝ (circleApproxVertices c r n) :=
    fun i hi => subset_convexHull ℝ _ ⟨i, Finset.mem_range.mp hi, rfl⟩
  have hmem := (convex_convexHull ℝ (circleApproxVertices c r n)).sum_mem h₀ h₁ hz
  have hc : (∑ i ∈ Finset.range n, (n : ℝ)⁻¹ • circleApproxVertex c r n i) = c := by
    apply Prod.ext
    · rw [Prod.fst_sum]
      have hterm : ∀ i ∈ Finset.range n,
          ((n : ℝ)⁻¹ • circleApproxVertex c r n i).1 =
            (n : ℝ)⁻¹ * c.1 + (n : ℝ)⁻¹ * r * Real.cos (2 * π * i / n) := by
        intro i _
        rw [Prod.smul_fst, circleApproxVertex, smul_eq_mul]
        ring
      rw [Finset.sum_congr rfl hterm, Finset.sum_add_distrib, Finset.sum_const,
        Finset.card_range, ← Finset.mul_sum, sum_circle_cos_eq_zero hn,
        nsmul_eq_mul]
      field_simp
    · rw [Prod.snd_sum]
      have hterm : ∀ i ∈ Finset.range n,
          ((n : ℝ)⁻¹ • circleApproxVertex c r n i).2 =
            (n : ℝ)⁻¹ * c.2 + (n : ℝ)⁻¹ * r * Real.sin (2 * π * i / n) := by
        intro i _
        rw [Prod.smul_snd, circleApproxVertex, smul_eq_mul]
        ring
      rw [Finset.sum_congr rfl hterm, Finset.sum_add_distrib, Finset.sum_const,
        Finset.card_range, ← Finset.mul_sum, sum_circle_sin_eq_zero hn,
        nsmul_eq_mul]
      field_simp
  nth_rewrite 2 [← hc]
  exact hmem

/-- Corner index `n` of an `n`-gon coincides with corner `0` (the angle wraps
around the full circle). -/
theorem circleApproxVertex_wrap (c : ℝ × ℝ) (r : ℝ) {n : ℕ} (hn : 0 < n) :
    circleApproxVertex c r n n = circleApproxVertex c r n 0 := by
  have hn0 : (n : ℝ) ≠ 0 := by exact_mod_cast hn.ne'
  have h : 2 * π * (n : ℝ) / (n : ℝ) = 2 * π := by field_simp
  rw [circleApproxVertex, circleApproxVertex, h]
  norm_num [Real.cos_two_pi, Real.sin_two_pi]


/-- C7: for a via of radius `R` and clearance `C`, when the caller-supplied
correction factor compensates the chord sagitta (`corr * cos (pi/n) >= 1`,
the stated purpose of the correction factor), the polygon produced by
`TransformShapeWithClearanceToPolygon` fully contains the disc of radius
`R + C` centered at the via position: the segment approximation never
under-covers the clearance region. -/
theorem viaPolygon_contains_disc (c : ℝ × ℝ) (R C : ℝ) (n : ℕ) (corr : ℝ)
    (hn : 3 ≤ n) (hRC : 0 ≤ R + C) (hcorr : 1 ≤ corr * Real.cos (π / n)) :
    closedDisc c (R + C) ⊆ TransformShapeWithClearanceToPolygon c R C n corr := by
  intro p hp
  rw [TransformShapeWithClearanceToPolygon]
  set ρ : ℝ := R + C with hρdef
  set r : ℝ := ρ * corr with hrdef
  have hn0 : (0 : ℝ) < n := by exact_mod_cast (by omega : 0 < n)
  have hnR3 : (3 : ℝ) ≤ n := by exact_mod_cast hn
  have hπ := Real.pi_pos
  have hπn_pos : 0 < π / n := by positivity
  have hπn_le : π / (n : ℝ) ≤ π / 3 := by
    rw [div_le_div_iff hn0 (by norm_num : (0:ℝ) < 3)]
    nlinarith
  have hcosπn : 0 < Real.cos (π / n) :=
    Real.cos_pos_of_mem_Ioo ⟨by linarith, by linarith⟩
  have hcorr0 : 0 < corr := by nlinarith [Real.cos_le_one (π / (n : ℝ))]
  have hrρ : ρ ≤ r * Real.cos (π / n) := by
    have hexp : r * Real.cos (π / n) = ρ * (corr * Real.cos (π / n)) := by
      rw [hrdef]; ring
    rw [hexp]
    nlinarith
  set z : ℂ := ⟨p.1 - c.1, p.2 - c.2⟩ with hzdef
  set d : ℝ := Complex.abs z with hddef
  have hd0 : 0 ≤ d := Complex.abs.nonneg z
  have hd2 : d ^ 2 = (p.1 - c.1) ^ 2 + (p.2 - c.2) ^ 2 := by
    rw [hddef, Complex.sq_abs, hzdef, Complex.normSq_mk]
    ring
  have hpdisc : (p.1 - c.1) ^ 2 + (p.2 - c.2) ^ 2 ≤ ρ ^ 2 := hp
  have hdρ : d ≤ ρ := by nlinarith
  by_cases hz0 : z = 0
  · have h1 : p.1 - c.1 = 0 := by
      have := congrArg Complex.re hz0
      simpa [hzdef] using this
    have h2 : p.2 - c.2 = 0 := by
      have := congrArg Complex.im hz0
      simpa [hzdef] using this
    have hpc : p = c := Prod.ext (by linarith) (by linarith)
    rw [hpc]
    exact center_mem_circleApproxHull (by omega) c r
  · have hdpos : 0 < d := Complex.abs.pos hz0
    set θ : ℝ := Complex.arg z with hθdef
    have hθ_le : θ ≤ π := Complex.arg_le_pi z
    have hθ_gt : -π < θ := Complex.neg_pi_lt_arg z
    have hre : p.1 - c.1 = d * Real.cos θ := by
      rw [hθdef, Complex.cos_arg hz0, hddef]
      have hzre : z.re = p.1 - c.1 := by rw [hzdef]
      rw [← hzre]
      field_simp
    have him : p.2 - c.2 = d * Real.sin θ := by
      rw [hθdef, Complex.sin_arg, hddef]
      have hzim : z.im = p.2 - c.2 := by rw [hzdef]
      rw [← hzim]
      field_simp
    set ψ : ℝ := if θ < 0 then θ + 2 * π else θ with hψdef
    obtain ⟨hψ0, hψlt, hcos', hsin'⟩ :
        0 ≤ ψ ∧ ψ < 2 * π ∧ Real.cos ψ = Real.cos θ ∧
          Real.sin ψ = Real.sin θ := by
      rw [hψdef]
      split_ifs with hneg
      · exact ⟨by linarith, by linarith,
          Real.cos_add_two_pi θ, Real.sin_add_two_pi θ⟩
      · exact ⟨le_of_not_lt hneg, by linarith, rfl, rfl⟩
    have h2π : (0 : ℝ) < 2 * π := by linarith
    set κ : ℤ := ⌊ψ * n / (2 * π)⌋ with hκdef
    have hκ0 : 0 ≤ κ :=
      Int.floor_nonneg.mpr (div_nonneg (mul_nonneg hψ0 hn0.le) h2π.le)
    have hfloor_le : (κ : ℝ) ≤ ψ * n / (2 * π) := Int.floor_le _
    have hlt_floor : ψ * n / (2 * π) < κ + 1 := Int.lt_floor_add_one _
    set k : ℕ := κ.toNat with hkdef
    have hkκ : (k : ℝ) = (κ : ℝ) := by
      have := Int.toNat_of_nonneg hκ0
      rw [hkdef]
      exact_mod_cast congrArg (fun m : ℤ => (m : ℝ)) this
    have hκn : κ < (n : ℤ) := by
      rw [hκdef]
      apply Int.floor_lt.mpr
      push_cast
      rw [div_lt_iff h2π]
      nlinarith
    have hkn : k < n := by omega
    set α : ℝ := 2 * π * k / n with hαdef
    set β : ℝ := 2 * π * ((k : ℝ) + 1) / n with hβdef
    have hαθ : α ≤ ψ := by
      have h1 : (κ : ℝ) * (2 * π) ≤ ψ * n := (le_div_iff h2π).mp hfloor_le
      rw [hαdef, div_le_iff hn0, hkκ]
      nlinarith
    have hθβ : ψ < β := by
      have h1 : ψ * n < ((κ : ℝ) + 1) * (2 * π) := (div_lt_iff h2π).mp hlt_floor
      rw [hβdef, lt_div_iff hn0, hkκ]
      nlinarith
    have hβα : β - α = 2 * π / n := by
      rw [hαdef, hβdef]
      field_simp
      ring
    have hδ_lt_π : 2 * π / n < π := by
      rw [div_lt_iff hn0]
      nlinarith
    have hδ_pos : (0 : ℝ) < 2 * π / n := by positivity
    have hsinδ : 0 < Real.sin (2 * π / n) :=
      Real.sin_pos_of_pos_of_lt_pi hδ_pos hδ_lt_π
    have hsinH : 0 < Real.sin (π / n) :=
      Real.sin_pos_of_pos_of_lt_pi hπn_pos (by linarith)
    have hρpos : 0 < ρ := lt_of_lt_of_le hdpos hdρ
    have hrpos : 0 < r := by rw [hrdef]; positivity
    set s : ℝ := r * Real.sin (2 * π / n) with hsdef
    have hspos : 0 < s := by rw [hsdef]; positivity
    set a : ℝ := d * Real.sin (β - ψ) / s with hadef
    set b : ℝ := d * Real.sin (ψ - α) / s with hbdef
    have hsinX0 : 0 ≤ Real.sin (β - ψ) :=
      Real.sin_nonneg_of_nonneg_of_le_pi (by linarith) (by linarith)
    have hsinY0 : 0 ≤ Real.sin (ψ - α) :=
      Real.sin_nonneg_of_nonneg_of_le_pi (by linarith) (by linarith)
    have ha0 : 0 ≤ a := by
      rw [hadef]
      exact div_nonneg (mul_nonneg hd0 hsinX0) hspos.le
    have hb0 : 0 ≤ b := by
      rw [hbdef]
      exact div_nonneg (mul_nonneg hd0 hsinY0) hspos.le
    have hsum_eq : Real.sin (β - ψ) + Real.sin (ψ - α) =
        2 * Real.sin (π / n) * Real.cos ((α + β) / 2 - ψ) := by
      rw [sin_sub_add_sin_sub α β ψ]
      have hhalf : (β - α) / 2 = π / n := by rw [hβα]; ring
      rw [hhalf]
    have hs_eq : s = r * (2 * Real.sin (π / n) * Real.cos (π / n)) := by
      rw [hsdef]
      have htwo : (2 : ℝ) * π / n = 2 * (π / n) := by ring
      rw [htwo, Real.sin_two_mul]
    have hab : a + b =
        d * (2 * Real.sin (π / n) * Real.cos ((α + β) / 2 - ψ)) / s := by
      rw [hadef, hbdef, div_add_div_same, ← mul_add, hsum_eq]
    have hab1 : a + b ≤ 1 := by
      rw [hab, div_le_one hspos, hs_eq]
      have hcosM := Real.cos_le_one ((α + β) / 2 - ψ)
      have h2s : (0 : ℝ) ≤ 2 * Real.sin (π / n) := by linarith
      calc d * (2 * Real.sin (π / n) * Real.cos ((α + β) / 2 - ψ))
          ≤ d * (2 * Real.sin (π / n) * 1) := by
            apply mul_le_mul_of_nonneg_left ?_ hd0
            apply mul_le_mul_of_nonneg_left hcosM h2s
        _ = d * (2 * Real.sin (π / n)) := by ring
        _ ≤ ρ * (2 * Real.sin (π / n)) := mul_le_mul_of_nonneg_right hdρ h2s
        _ ≤ (r * Real.cos (π / n)) * (2 * Real.sin (π / n)) :=
            mul_le_mul_of_nonneg_right hrρ h2s
        _ = r * (2 * Real.sin (π / n) * Real.cos (π / n)) := by ring
    have hx : a * (r * Real.cos α) + b * (r * Real.cos β) = d * Real.cos ψ := by
      have hid := tri_cos α β ψ
      rw [hβα] at hid
      rw [hadef, hbdef]
      field_simp [hsdef]
      linear_combination (d * r) * hid
    have hy : a * (r * Real.sin α) + b * (r * Real.sin β) = d * Real.sin ψ := by
      have hid := tri_sin α β ψ
      rw [hβα] at hid
      rw [hadef, hbdef]
      field_simp [hsdef]
      linear_combination (d * r) * hid
    have hcomb : p = a • circleApproxVertex c r n k +
        b • circleApproxVertex c r n (k + 1) + (1 - a - b) • c := by
      apply Prod.ext
      · simp only [Prod.fst_add, Prod.smul_fst, smul_eq_mul, circleApproxVertex]
        push_cast
        rw [← hαdef, ← hβdef]
        have hp1 : p.1 = c.1 + d * Real.cos ψ := by
          rw [hcos']
          linarith [hre]
        rw [hp1]
        linear_combination -hx
      · simp only [Prod.snd_add, Prod.smul_snd, smul_eq_mul, circleApproxVertex]
        push_cast
        rw [← hαdef, ← hβdef]
        have hp2 : p.2 = c.2 + d * Real.sin ψ := by
          rw [hsin']
          linarith [him]
        rw [hp2]
        linear_combination -hy
    have hv1 : circleApproxVertex c r n k ∈
        convexHull ℝ (circleApproxVertices c r n) :=
      subset_convexHull ℝ _ ⟨k, hkn, rfl⟩
    have hv2 : circleApproxVertex c r n (k + 1) ∈
        convexHull ℝ (circleApproxVertices c r n) := by
      rcases Nat.lt_or_ge (k + 1) n with hlt | hge
      · exact subset_convexHull ℝ _ ⟨k + 1, hlt, rfl⟩
      · have heq : k + 1 = n := le_antisymm (Nat.succ_le_of_lt hkn) hge
        rw [heq, circleApproxVertex_wrap c r (by omega)]
        exact subset_convexHull ℝ _ ⟨0, by omega, rfl⟩
    have hc3 : c ∈ convexHull ℝ (circleApproxVertices c r n) :=
      center_mem_circleApproxHull (by omega) c r
    have hconv := convex_convexHull ℝ (circleApproxVertices c r n)
    rcases eq_or_lt_of_le (add_nonneg ha0 hb0) with hu0 | hupos
    · have haz : a = 0 := by linarith
      have hbz : b = 0 := by linarith
      rw [hcomb, haz, hbz]
      simpa using hc3
    · set u : ℝ := a + b with hudef
      have hm : (a / u) • circleApproxVertex c r n k +
          (b / u) • circleApproxVertex c r n (k + 1) ∈
            convexHull ℝ (circleApproxVertices c r n) := by
        refine hconv hv1 hv2 (div_nonneg ha0 hupos.le) (div_nonneg hb0 hupos.le) ?_
        field_simp
      have h1 : u • ((a / u) • circleApproxVertex c r n k) =
          a • circleApproxVertex c r n k := by
        rw [smul_smul]
        congr 1
        field_simp
      have h2 : u • ((b / u) • circleApproxVertex c r n (k + 1)) =
          b • circleApproxVertex c r n (k + 1) := by
        rw [smul_smul]
        congr 1
        field_simp
      have key : u • ((a / u) • circleApproxVertex c r n k +
          (b / u) • circleApproxVertex c r n (k + 1)) + (1 - u) • c = p := by
        rw [smul_add, h1, h2, hcomb]
        have h3 : (1 : ℝ) - u = 1 - a - b := by rw [hudef]; ring
        rw [h3]
      rw [← key]
      exact hconv hm hc3 hupos.le (by linarith) (by ring)


/-- C7 witness: with 4 segments and correction factor 2 (which satisfies
`2 * cos (pi/4) = sqrt 2 >= 1`), the polygon for a via of radius 1 and
clearance 1 contains the disc of radius 2. -/
theorem viaPolygon_contains_disc_witness :
    closedDisc ((0 : ℝ), (0 : ℝ)) ((1 : ℝ) + 1) ⊆
      TransformShapeWithClearanceToPolygon ((0 : ℝ), (0 : ℝ)) 1 1 4 2 :=
  viaPolygon_contains_disc ((0 : ℝ), (0 : ℝ)) 1 1 4 2 (by norm_num)
    (by norm_num)
    (by
      have hc : Real.cos (π / ((4 : ℕ) : ℝ)) = Real.sqrt 2 / 2 := by
        norm_num [Real.cos_pi_div_four]
      rw [hc]
      have h2 : (1 : ℝ) ≤ Real.sqrt 2 := by
        nlinarith [Real.sq_sqrt (by norm_num : (0 : ℝ) ≤ 2), Real.sqrt_nonneg 2]
      linarith)

end
